import Mathlib

/-!
Verification of the source-map composition and lookup engine of
`crates/turbopack-core/src/source_map/mod.rs`.

The data model and operations below are shallow embeddings of the Rust
source.  The external `sourcemap` crate (decoder/encoder primitives) and the
`SourcePos` type (defined in `source_pos.rs`, outside the given sources) are
modelled from the specification, as noted in their doc comments.
-/

/-- Modelled from the spec: `SourcePos` lives in `source_pos.rs`, which is not
among the given sources.  Per the spec it is a `(line, column)` pair of
unsigned integers. -/
structure SourcePos where
  line : Nat
  column : Nat
deriving DecidableEq

/-- Modelled from the spec: the total order on positions is lexicographic on
`(line, column)`. -/
def SourcePos.lt (a b : SourcePos) : Prop :=
  a.line < b.line ∨ (a.line = b.line ∧ a.column < b.column)

/-- Non-strict lexicographic order on positions. -/
def SourcePos.le (a b : SourcePos) : Prop :=
  a.line < b.line ∨ (a.line = b.line ∧ a.column ≤ b.column)

instance (a b : SourcePos) : Decidable (SourcePos.lt a b) := by
  unfold SourcePos.lt; infer_instance

instance (a b : SourcePos) : Decidable (SourcePos.le a b) := by
  unfold SourcePos.le; infer_instance

/-- A token of the external `sourcemap` crate (`sourcemap::Token`): generated
(dst) position, original (src) position, optional source file and name.
`source = none` models a token for which `has_source()` is false. -/
structure CrateToken where
  dst_line : Nat
  dst_col : Nat
  src_line : Nat
  src_col : Nat
  source : Option String
  name : Option String
deriving DecidableEq

/-- `sourcemap::Token::has_source`. -/
def CrateToken.has_source (t : CrateToken) : Bool :=
  t.source.isSome

/-- `sourcemap::Token::get_source`. -/
def CrateToken.get_source (t : CrateToken) : Option String :=
  t.source

/-- `SyntheticToken` (mod.rs lines 59-62). -/
structure SyntheticToken where
  generated_line : Nat
  generated_column : Nat
deriving DecidableEq

/-- `OriginalToken` (mod.rs lines 67-74). -/
structure OriginalToken where
  generated_line : Nat
  generated_column : Nat
  original_file : String
  original_line : Nat
  original_column : Nat
  name : Option String
deriving DecidableEq

/-- `Token` (mod.rs lines 51-54): either synthetic or original. -/
inductive Token where
  | Synthetic (t : SyntheticToken)
  | Original (t : OriginalToken)
deriving DecidableEq

/-- The generated line carried by a token (either variant). -/
def Token.generated_line : Token → Nat
  | .Synthetic t => t.generated_line
  | .Original t => t.generated_line

/-- `impl From<sourcemap::Token> for Token` (mod.rs lines 79-100).  The Rust
code checks `has_source()` and then `expect`s `get_source()`; the `expect` is
embedded as an `Option` bind, so failure of the extraction would surface as
`none`. -/
def Token.fromCrate (t : CrateToken) : Option Token :=
  if t.has_source then
    t.get_source.map fun src =>
      Token.Original
        ⟨t.dst_line, t.dst_col, src, t.src_line, t.src_col, t.name⟩
  else
    some (Token.Synthetic ⟨t.dst_line, t.dst_col⟩)

/-- Modelled from the spec: the external `sourcemap` crate's
`SourceMap::lookup_token` primitive (the "underlying decode primitive" of
§4.3).  It returns the mapping covering the queried position: the rightmost
token in the (position-ordered) token list whose generated position is
`<=` the query — which, as the spec notes, may lie on an earlier line. -/
def crateLookup (tokens : List CrateToken) (line column : Nat) : Option CrateToken :=
  tokens.foldl
    (fun acc t =>
      if SourcePos.le ⟨t.dst_line, t.dst_col⟩ ⟨line, column⟩ then some t else acc)
    none

/-- `SourceMap` (mod.rs lines 32-38): Regular wraps one decoded crate map
(modelled by its token list); Sectioned holds `(offset, nested map)` pairs
(`SourceMapSection`, mod.rs lines 328-331). -/
inductive SourceMap where
  | Regular (tokens : List CrateToken)
  | Sectioned (sections : List (SourcePos × SourceMap))

/-- The GLB binary-search loop of `SourceMap::lookup_token` (mod.rs lines
217-224): narrow `[low, high)`; if `pos < sections[mid].offset` move `high`
down to `mid`, else move `low` past `mid`. -/
def glbLoop (offsets : List SourcePos) (pos : SourcePos) (low high : Nat) : Nat :=
  if h : low < high then
    let mid := (low + high) / 2
    if SourcePos.lt pos (offsets.getD mid ⟨0, 0⟩) then
      glbLoop offsets pos low mid
    else
      glbLoop offsets pos (mid + 1) high
  else
    low
termination_by high - low
decreasing_by
  all_goals simp_wf
  all_goals omega

/-- Section selection of the Sectioned branch (mod.rs lines 210-229): run the
GLB loop over `[0, len)` and, when `low > 0 && low <= len`, pick index
`low - 1`; otherwise no section applies. -/
def sectionIndex (offsets : List SourcePos) (pos : SourcePos) : Option Nat :=
  let low := glbLoop offsets pos 0 offsets.length
  if 0 < low ∧ low ≤ offsets.length then some (low - 1) else none

/-- `SourceMap::lookup_token` (mod.rs lines 196-247).
Regular: crate lookup, then the wrong-line filter
(`.filter(|t| t.get_dst_line() == line)`), then `Token::from`.
Sectioned: GLB binary search for the section, then translate the query into
the section's local coordinates (`l = line - offset.line`;
`c = column - offset.column` only on the offset's own line) and recurse. -/
def SourceMap.lookup_token : SourceMap → Nat → Nat → Option Token
  | .Regular tokens, line, column =>
    ((crateLookup tokens line column).filter
      (fun t => t.dst_line == line)).bind Token.fromCrate
  | .Sectioned sections, line, column =>
    let pos : SourcePos := ⟨line, column⟩
    match sectionIndex (sections.map Prod.fst) pos with
    | some i =>
      match h : sections.get? i with
      | some s =>
        let l := line - s.1.line
        let c := if line == s.1.line then column - s.1.column else column
        s.2.lookup_token l c
      | none => none
    | none => none
termination_by m => sizeOf m
decreasing_by
  simp_wf
  have hmem : s ∈ sections := List.get?_mem h
  have := List.sizeOf_lt_of_mem hmem
  cases s with
  | mk o m => simp at this ⊢; omega

/-- `SourceMap::empty` (mod.rs lines 122-127): a builder with the single
mapping `add(0, 0, 0, 0, None, None)` — one token, generated `(0,0)`,
original `(0,0)`, no source, no name. -/
def SourceMap.empty : SourceMap :=
  SourceMap.Regular [⟨0, 0, 0, 0, none, none⟩]

/-- Opening bytes of the index-map wrapper (mod.rs lines 152-156). -/
def indexMapHeader : String :=
  "\x7b\n  \"version\": 3,\n  \"sections\": ["

/-- Closing bytes of the index-map wrapper (mod.rs lines 184-185). -/
def indexMapFooter : String :=
  "]\n\x7d"

/-- The bytes written for one section by the loop body (mod.rs lines
172-181): the offset object followed by the nested map's own bytes. -/
def sectionEntry (offset : SourcePos) (mapRope : String) : String :=
  "\n    \x7b\"offset\": \x7b\"line\": " ++ toString offset.line ++
    ", \"column\": " ++ toString offset.column ++ "\x7d, \"map\": " ++
    mapRope ++ "\x7d"

mutual

/-- `SourceMap::to_rope` (mod.rs lines 134-191).  `toWriter` models the
external crate's `to_writer` byte encoder for a regular map (its output is
opaque to this code).  Regular: delegate to the encoder.  Sectioned: if there
is exactly one section and its offset is `(0,0)`, return that section's own
bytes; otherwise emit the index-map wrapper around the section entries. -/
def SourceMap.to_rope (toWriter : List CrateToken → String) : SourceMap → String
  | .Regular tokens => toWriter tokens
  | .Sectioned [s] =>
    if s.1 = (⟨0, 0⟩ : SourcePos) then s.2.to_rope toWriter
    else indexMapHeader ++ sectionEntries toWriter [s] true ++ indexMapFooter
  | .Sectioned sections =>
    indexMapHeader ++ sectionEntries toWriter sections true ++ indexMapFooter
termination_by m => sizeOf m
decreasing_by
  all_goals simp_wf
  all_goals try cases s
  all_goals simp_arith

/-- The section loop of `to_rope` (mod.rs lines 165-182): the flag
`first` tracks `first_section`; a comma is written before every entry but the
first. -/
def sectionEntries (toWriter : List CrateToken → String) :
    List (SourcePos × SourceMap) → Bool → String
  | [], _ => ""
  | s :: rest, first =>
    (if first then "" else ",") ++ sectionEntry s.1 (s.2.to_rope toWriter) ++
      sectionEntries toWriter rest false
termination_by l _ => sizeOf l
decreasing_by
  all_goals simp_wf
  all_goals cases s
  all_goals simp_arith

end

/-- Byte encoding of an optional string, for the serde codec model: a
presence tag, then length-prefixed character codes. -/
def encodeOptStr : Option String → List Nat
  | none => [0]
  | some s => 1 :: s.data.length :: s.data.map Char.toNat

/-- Byte encoding of one token, for the serde codec model. -/
def encodeToken (t : CrateToken) : List Nat :=
  t.dst_line :: t.dst_col :: t.src_line :: t.src_col ::
    (encodeOptStr t.source ++ encodeOptStr t.name)

/-- Byte encoding of a token list, for the serde codec model. -/
def encodeTokens : List CrateToken → List Nat
  | [] => []
  | t :: rest => encodeToken t ++ encodeTokens rest

/-- Modelled from the spec: the external crate's `to_writer` encoder as used
by `impl Serialize for CrateMapWrapper` (mod.rs lines 294-301), which writes
the wrapped map's bytes.  The v3 JSON/VLQ text is modelled as an injective
byte encoding of the decoded token list: a count followed by each token's
fields. -/
def crateMapWrapper_serialize (tokens : List CrateToken) : List Nat :=
  tokens.length :: encodeTokens tokens

/-- Decode a length-prefixed optional string, returning the remaining
bytes. -/
def decodeOptStr : List Nat → Option (Option String × List Nat)
  | 0 :: rest => some (none, rest)
  | 1 :: n :: rest =>
    if n ≤ rest.length then
      some (some (String.mk ((rest.take n).map Char.ofNat)), rest.drop n)
    else none
  | _ => none

/-- Decode one token, returning the remaining bytes. -/
def decodeToken : List Nat → Option (CrateToken × List Nat)
  | a :: b :: c :: d :: rest =>
    match decodeOptStr rest with
    | some (src, rest1) =>
      match decodeOptStr rest1 with
      | some (nm, rest2) => some (⟨a, b, c, d, src, nm⟩, rest2)
      | none => none
    | none => none
  | _ => none

/-- Decode a counted sequence of tokens. -/
def decodeTokens : Nat → List Nat → Option (List CrateToken × List Nat)
  | 0, bytes => some ([], bytes)
  | n + 1, bytes =>
    match decodeToken bytes with
    | some (t, rest) =>
      match decodeTokens n rest with
      | some (ts, rest1) => some (t :: ts, rest1)
      | none => none
    | none => none

/-- Modelled from the spec: the external crate's `from_slice` decoder as used
by `impl Deserialize for CrateMapWrapper` (mod.rs lines 303-310), which
parses the wrapper back from the byte slice; malformed or trailing bytes are
a decode failure. -/
def crateMapWrapper_deserialize (bytes : List Nat) : Option (List CrateToken) :=
  match bytes with
  | [] => none
  | n :: rest =>
    match decodeTokens n rest with
    | some (ts, rest1) => if rest1 = [] then some ts else none
    | none => none

/-- Spec-side reference (C1): a linear scan computing "the largest i such
that offsets[i] <= p", or none when no offset is `<=` p. -/
def linearGLB : List SourcePos → SourcePos → Option Nat
  | [], _ => none
  | o :: rest, p =>
    match linearGLB rest p with
    | some i => some (i + 1)
    | none => if SourcePos.le o p then some 0 else none

/-- Spec-side reference (C5): comma-separated concatenation with no trailing
comma. -/
def joinComma : List String → String
  | [] => ""
  | [x] => x
  | x :: rest => x ++ "," ++ joinComma rest

/-! ### Order lemmas for lexicographic positions -/

theorem SourcePos.le_of_not_lt {a b : SourcePos} (h : ¬ SourcePos.lt a b) :
    SourcePos.le b a := by
  unfold SourcePos.lt at h
  unfold SourcePos.le
  omega

theorem SourcePos.not_le_of_lt {a b : SourcePos} (h : SourcePos.lt a b) :
    ¬ SourcePos.le b a := by
  unfold SourcePos.lt at h
  unfold SourcePos.le
  omega

theorem SourcePos.lt_trans {a b c : SourcePos}
    (h1 : SourcePos.lt a b) (h2 : SourcePos.lt b c) : SourcePos.lt a c := by
  unfold SourcePos.lt at *
  omega

theorem SourcePos.le_refl (a : SourcePos) : SourcePos.le a a := by
  unfold SourcePos.le
  omega

/-! ### Invariants of the GLB binary-search loop -/

/-- Loop invariant of `glbLoop`: starting from a bracketed `[low, high)`
range (everything left of `low` is `<=` the query, everything from `high`
on is `>` it), the loop returns an index with the same bracketing. -/
theorem glbLoop_spec :
    ∀ (fuel : Nat) (offsets : List SourcePos) (pos : SourcePos) (low high : Nat),
    high - low ≤ fuel → low ≤ high → high ≤ offsets.length →
    (low = 0 ∨ SourcePos.le (offsets.getD (low - 1) ⟨0, 0⟩) pos) →
    (high = offsets.length ∨ SourcePos.lt pos (offsets.getD high ⟨0, 0⟩)) →
    low ≤ glbLoop offsets pos low high ∧
    glbLoop offsets pos low high ≤ high ∧
    (glbLoop offsets pos low high = 0 ∨
      SourcePos.le (offsets.getD (glbLoop offsets pos low high - 1) ⟨0, 0⟩) pos) ∧
    (glbLoop offsets pos low high = offsets.length ∨
      SourcePos.lt pos (offsets.getD (glbLoop offsets pos low high) ⟨0, 0⟩)) := by
  intro fuel
  induction fuel with
  | zero =>
    intro offsets pos low high hfuel hlh hlen hlow hhigh
    have hEq : low = high := by omega
    rw [glbLoop]
    simp only [show ¬ low < high by omega, dite_false]
    refine ⟨Nat.le_refl _, hlh, hlow, ?_⟩
    rw [hEq]
    exact hhigh
  | succ n ih =>
    intro offsets pos low high hfuel hlh hlen hlow hhigh
    rw [glbLoop]
    by_cases h : low < high
    · simp only [h, dite_true]
      by_cases hmid : SourcePos.lt pos (offsets.getD ((low + high) / 2) ⟨0, 0⟩)
      · simp only [hmid, if_true]
        have := ih offsets pos low ((low + high) / 2)
          (by omega) (by omega) (by omega) hlow (Or.inr hmid)
        exact ⟨this.1, by omega, this.2.2.1, this.2.2.2⟩
      · simp only [hmid, if_false]
        have hle : SourcePos.le (offsets.getD ((low + high) / 2) ⟨0, 0⟩) pos :=
          SourcePos.le_of_not_lt hmid
        have := ih offsets pos ((low + high) / 2 + 1) high
          (by omega) (by omega) hlen (Or.inr (by simpa using hle)) hhigh
        exact ⟨by omega, this.2.1, this.2.2.1, this.2.2.2⟩
    · simp only [h, dite_false]
      refine ⟨Nat.le_refl _, hlh, hlow, ?_⟩
      rw [show low = high by omega]
      exact hhigh

/-- Characterisation of the code's section selection: `some i` comes with the
GLB bracketing `offsets[i] <= pos < offsets[i+1]`; `none` means the loop
returned `0`. -/
theorem sectionIndex_spec (offsets : List SourcePos) (pos : SourcePos) :
    (sectionIndex offsets pos = none → glbLoop offsets pos 0 offsets.length = 0) ∧
    (∀ i, sectionIndex offsets pos = some i →
      i + 1 = glbLoop offsets pos 0 offsets.length ∧
      i < offsets.length ∧
      SourcePos.le (offsets.getD i ⟨0, 0⟩) pos ∧
      (i + 1 = offsets.length ∨ SourcePos.lt pos (offsets.getD (i + 1) ⟨0, 0⟩))) := by
  have hspec := glbLoop_spec offsets.length offsets pos 0 offsets.length
    (by omega) (by omega) (by omega) (Or.inl rfl) (Or.inl rfl)
  constructor
  · intro hnone
    simp only [sectionIndex] at hnone
    split at hnone
    · exact absurd hnone (by simp)
    · next hcond => omega
  · intro i hsome
    simp only [sectionIndex] at hsome
    split at hsome
    · next hcond =>
      rw [Option.some.injEq] at hsome
      have h3 : SourcePos.le
          (offsets.getD (glbLoop offsets pos 0 offsets.length - 1) ⟨0, 0⟩) pos := by
        rcases hspec.2.2.1 with h | h
        · omega
        · exact h
      refine ⟨by omega, by omega, ?_, ?_⟩
      · rw [← hsome]; exact h3
      · rcases hspec.2.2.2 with h | h
        · left; omega
        · right
          rw [show i + 1 = glbLoop offsets pos 0 offsets.length by omega]
          exact h
    · exact Option.noConfusion hsome

/-! ### The linear reference scan -/

theorem linearGLB_none_iff (offsets : List SourcePos) (p : SourcePos) :
    linearGLB offsets p = none ↔ ∀ o ∈ offsets, ¬ SourcePos.le o p := by
  induction offsets with
  | nil => simp [linearGLB]
  | cons o rest ih =>
    simp only [linearGLB]
    cases h : linearGLB rest p with
    | some i =>
      simp only [List.mem_cons]
      constructor
      · intro hfalse; exact Option.noConfusion hfalse
      · intro hall
        have : linearGLB rest p = none := ih.mpr fun x hx => hall x (Or.inr hx)
        rw [h] at this
        exact Option.noConfusion this
    | none =>
      constructor
      · intro hnone
        by_cases hle : SourcePos.le o p
        · simp [hle] at hnone
        · intro x hx
          rcases List.mem_cons.mp hx with rfl | hx'
          · exact hle
          · exact (ih.mp h) x hx'
      · intro hall
        simp [hall o (List.mem_cons_self o rest)]

theorem linearGLB_some_spec :
    ∀ (offsets : List SourcePos) (p : SourcePos) (i : Nat),
    linearGLB offsets p = some i →
    i < offsets.length ∧ SourcePos.le (offsets.getD i ⟨0, 0⟩) p ∧
    ∀ j, i < j → j < offsets.length → ¬ SourcePos.le (offsets.getD j ⟨0, 0⟩) p := by
  intro offsets
  induction offsets with
  | nil => intro p i h; exact Option.noConfusion h
  | cons o rest ih =>
    intro p i h
    simp only [linearGLB] at h
    cases hr : linearGLB rest p with
    | some i' =>
      rw [hr, Option.some.injEq] at h
      obtain ⟨hi', hle', hall'⟩ := ih p i' hr
      refine ⟨by simp; omega, ?_, ?_⟩
      · rw [← h]; simpa using hle'
      · intro j hji hjlen
        obtain ⟨j', rfl⟩ : ∃ j', j = j' + 1 := ⟨j - 1, by omega⟩
        simp only [List.getD_cons_succ]
        exact hall' j' (by omega) (by simpa using hjlen)
    | none =>
      rw [hr] at h
      by_cases hle : SourcePos.le o p
      · rw [if_pos hle, Option.some.injEq] at h
        refine ⟨by simp; omega, by rw [← h]; simpa using hle, ?_⟩
        intro j hji hjlen
        obtain ⟨j', rfl⟩ : ∃ j', j = j' + 1 := ⟨j - 1, by omega⟩
        simp only [List.getD_cons_succ]
        have hj' : j' < rest.length := by simpa using hjlen
        have hmem : rest.getD j' ⟨0, 0⟩ ∈ rest := by
          rw [List.getD_eq_getElem rest _ hj']
          exact List.getElem_mem hj'
        exact (linearGLB_none_iff rest p).mp hr _ hmem
      · rw [if_neg hle] at h
        exact Option.noConfusion h

theorem linearGLB_eq_some_of :
    ∀ (offsets : List SourcePos) (p : SourcePos) (i : Nat),
    i < offsets.length →
    SourcePos.le (offsets.getD i ⟨0, 0⟩) p →
    (∀ j, i < j → j < offsets.length → ¬ SourcePos.le (offsets.getD j ⟨0, 0⟩) p) →
    linearGLB offsets p = some i := by
  intro offsets
  induction offsets with
  | nil => intro p i h; simp at h
  | cons o rest ih =>
    intro p i hi hle hall
    simp only [linearGLB]
    cases i with
    | zero =>
      have hrest : linearGLB rest p = none := by
        rw [linearGLB_none_iff]
        intro x hx
        obtain ⟨j', hj', rfl⟩ := List.mem_iff_getElem.mp hx
        have := hall (j' + 1) (by omega) (by simp; omega)
        simp only [List.getD_cons_succ] at this
        rwa [List.getD_eq_getElem rest _ hj'] at this
      rw [hrest]
      simp only [List.getD_cons_zero] at hle
      rw [if_pos hle]
    | succ i' =>
      have hrest : linearGLB rest p = some i' := by
        apply ih p i' (by simpa using hi) (by simpa using hle)
        intro j hji hjlen
        have := hall (j + 1) (by omega) (by simp; omega)
        simpa using this
      rw [hrest]

/-- On a strictly sorted offset list, elements appear in index order. -/
theorem sorted_getD_lt {offsets : List SourcePos}
    (hsorted : List.Pairwise SourcePos.lt offsets) {i j : Nat}
    (hij : i < j) (hj : j < offsets.length) :
    SourcePos.lt (offsets.getD i ⟨0, 0⟩) (offsets.getD j ⟨0, 0⟩) := by
  have hi : i < offsets.length := by omega
  rw [List.getD_eq_getElem offsets _ hi, List.getD_eq_getElem offsets _ hj]
  exact List.pairwise_iff_getElem.mp hsorted i j hi hj hij

/-- On a sorted offset list, the selection made by the code's binary search
is exactly the one made by the linear reference scan. -/
theorem sectionIndex_eq_linearGLB (offsets : List SourcePos) (p : SourcePos)
    (hsorted : List.Pairwise SourcePos.lt offsets) :
    sectionIndex offsets p = linearGLB offsets p := by
  have hspec := sectionIndex_spec offsets p
  cases h : sectionIndex offsets p with
  | none =>
    have hk := hspec.1 h
    have hglb := glbLoop_spec offsets.length offsets p 0 offsets.length
      (by omega) (by omega) (by omega) (Or.inl rfl) (Or.inl rfl)
    rw [hk] at hglb
    symm
    rw [linearGLB_none_iff]
    intro o ho
    obtain ⟨j, hj, rfl⟩ := List.mem_iff_getElem.mp ho
    rw [← List.getD_eq_getElem offsets ⟨0, 0⟩ hj]
    rcases hglb.2.2.2 with hlen | hlt
    · omega
    · cases Nat.eq_zero_or_pos j with
      | inl hj0 => subst hj0; exact SourcePos.not_le_of_lt hlt
      | inr hjpos =>
        exact SourcePos.not_le_of_lt
          (SourcePos.lt_trans hlt (sorted_getD_lt hsorted hjpos hj))
  | some i =>
    obtain ⟨hk, hi, hle, hbr⟩ := hspec.2 i h
    symm
    apply linearGLB_eq_some_of offsets p i hi hle
    intro j hji hjlen
    rcases hbr with hlen | hlt
    · omega
    · rcases Nat.lt_or_ge (i + 1) j with hgt | hle'
      · exact SourcePos.not_le_of_lt
          (SourcePos.lt_trans hlt (sorted_getD_lt hsorted hgt hjlen))
      · have : j = i + 1 := by omega
        subst this
        exact SourcePos.not_le_of_lt hlt

/-! ### Structure of the sectioned serialization -/

/-- After the first entry, the loop prepends a comma to every entry. -/
theorem sectionEntries_false_eq (toWriter : List CrateToken → String) :
    ∀ sections : List (SourcePos × SourceMap), sections ≠ [] →
    sectionEntries toWriter sections false =
      "," ++ joinComma
        (sections.map fun s => sectionEntry s.1 (s.2.to_rope toWriter)) := by
  intro sections
  induction sections with
  | nil => intro h; exact absurd rfl h
  | cons s rest ih =>
    intro _
    cases rest with
    | nil =>
      simp [sectionEntries, joinComma]
    | cons r rs =>
      rw [sectionEntries, ih (by simp)]
      simp only [List.map_cons, joinComma, if_false]
      simp [String.append_assoc]

/-- The loop started with `first_section = true` produces exactly the
comma-separated entries with no leading or trailing comma. -/
theorem sectionEntries_true_eq (toWriter : List CrateToken → String)
    (sections : List (SourcePos × SourceMap)) :
    sectionEntries toWriter sections true =
      joinComma
        (sections.map fun s => sectionEntry s.1 (s.2.to_rope toWriter)) := by
  cases sections with
  | nil => simp [sectionEntries, joinComma]
  | cons s rest =>
    cases rest with
    | nil => simp [sectionEntries, joinComma]
    | cons r rs =>
      rw [sectionEntries, sectionEntries_false_eq toWriter (r :: rs) (by simp)]
      simp only [List.map_cons, joinComma]
      simp [String.append_assoc]

/-! ### Round trip of the wrapper codec -/

theorem decodeOptStr_encodeOptStr (o : Option String) (rest : List Nat) :
    decodeOptStr (encodeOptStr o ++ rest) = some (o, rest) := by
  cases o with
  | none => rfl
  | some s =>
    simp only [encodeOptStr, List.cons_append, decodeOptStr]
    have hlen : s.data.length ≤ ((s.data.map Char.toNat) ++ rest).length := by
      simp
    rw [if_pos hlen]
    have htake : ((s.data.map Char.toNat) ++ rest).take s.data.length
        = s.data.map Char.toNat := by
      have h : s.data.length = (s.data.map Char.toNat).length := by simp
      rw [h, List.take_left]
    have hdrop : ((s.data.map Char.toNat) ++ rest).drop s.data.length = rest := by
      have h : s.data.length = (s.data.map Char.toNat).length := by simp
      rw [h, List.drop_left]
    rw [htake, hdrop]
    simp only [List.map_map, Option.some.injEq, Prod.mk.injEq]
    constructor
    · congr 1
      calc s.data.map (Char.ofNat ∘ Char.toNat)
          = s.data.map id := List.map_congr_left fun c _ => Char.ofNat_toNat c
        _ = s.data := List.map_id s.data
    · trivial

theorem decodeToken_encodeToken (t : CrateToken) (rest : List Nat) :
    decodeToken (encodeToken t ++ rest) = some (t, rest) := by
  simp only [encodeToken, List.cons_append, List.append_assoc, decodeToken,
    decodeOptStr_encodeOptStr]

theorem decodeTokens_encodeTokens (tokens : List CrateToken) (rest : List Nat) :
    decodeTokens tokens.length (encodeTokens tokens ++ rest) =
      some (tokens, rest) := by
  induction tokens with
  | nil => rfl
  | cons t ts ih =>
    simp only [List.length_cons, encodeTokens, List.append_assoc, decodeTokens,
      decodeToken_encodeToken, ih]

/-! ### Unfolding lemmas for the Sectioned lookup -/

theorem lookup_token_sectioned_none {sections : List (SourcePos × SourceMap)}
    {line column : Nat}
    (h : sectionIndex (sections.map Prod.fst) ⟨line, column⟩ = none) :
    SourceMap.lookup_token (.Sectioned sections) line column = none := by
  rw [SourceMap.lookup_token]
  simp only [h]

theorem lookup_token_sectioned_some {sections : List (SourcePos × SourceMap)}
    {line column i : Nat} {s : SourcePos × SourceMap}
    (hidx : sectionIndex (sections.map Prod.fst) ⟨line, column⟩ = some i)
    (hget : sections.get? i = some s) :
    SourceMap.lookup_token (.Sectioned sections) line column =
      s.2.lookup_token (line - s.1.line)
        (if line = s.1.line then column - s.1.column else column) := by
  rw [SourceMap.lookup_token]
  simp only [hidx]
  split
  · next s' heq =>
    rw [hget] at heq
    cases heq
    by_cases hl : line = s.1.line
    · simp [hl]
    · simp [hl]
  · next heq =>
    rw [hget] at heq
    exact Option.noConfusion heq

/-! ### The claims -/

/-- C1: on a Sectioned map whose sections are sorted ascending by offset,
`lookup_token` selects exactly the section a linear reference scan would
select — the rightmost section whose offset is `<=` the query under the
lexicographic order — and returns the empty result when no section's offset
is `<=` the query (in particular on an empty section list). -/
theorem lookup_token_glb_eq_linear (sections : List (SourcePos × SourceMap))
    (p : SourcePos)
    (hsorted : List.Pairwise SourcePos.lt (sections.map Prod.fst)) :
    sectionIndex (sections.map Prod.fst) p =
        linearGLB (sections.map Prod.fst) p ∧
    (linearGLB (sections.map Prod.fst) p = none ↔
        ∀ o ∈ sections.map Prod.fst, ¬ SourcePos.le o p) ∧
    (linearGLB (sections.map Prod.fst) p = none →
        SourceMap.lookup_token (SourceMap.Sectioned sections) p.line p.column
          = none) := by
  refine ⟨sectionIndex_eq_linearGLB _ _ hsorted, linearGLB_none_iff _ _, ?_⟩
  intro hnone
  apply lookup_token_sectioned_none
  show sectionIndex (sections.map Prod.fst) p = none
  rw [sectionIndex_eq_linearGLB _ _ hsorted]
  exact hnone

/-- Witness for C1 at the spec's end-to-end layout: two sections at offsets
`(0,0)` and `(10,0)`, queried at `(12,2)` and at a position preceding an
empty section list. -/
theorem lookup_token_glb_eq_linear_witness :
    (sectionIndex
        ([(⟨0, 0⟩, SourceMap.Regular []),
          (⟨10, 0⟩, SourceMap.Regular [])].map Prod.fst) ⟨12, 2⟩ =
      linearGLB
        ([(⟨0, 0⟩, SourceMap.Regular []),
          (⟨10, 0⟩, SourceMap.Regular [])].map Prod.fst) ⟨12, 2⟩) ∧
    (linearGLB (([] : List (SourcePos × SourceMap)).map Prod.fst) ⟨0, 0⟩ = none →
      SourceMap.lookup_token (SourceMap.Sectioned []) 0 0 = none) :=
  ⟨(lookup_token_glb_eq_linear
      [(⟨0, 0⟩, SourceMap.Regular []), (⟨10, 0⟩, SourceMap.Regular [])]
      ⟨12, 2⟩ (by simp [SourcePos.lt])).1,
   (lookup_token_glb_eq_linear [] ⟨0, 0⟩ (by simp)).2.2⟩

/-- C3: when the Sectioned lookup selects a section, the query is translated
to local coordinates before recursing: local line is the query line minus the
offset line, and the column is reduced by the offset column exactly when the
query lies on the offset's own line.  In particular a section with offset
`(10,5)` queried at `(10,5)`, `(10,8)` and `(11,2)` recurses at local
`(0,0)`, `(0,3)` and `(1,2)` respectively. -/
theorem sectioned_lookup_coordinate_translation :
    (∀ (sections : List (SourcePos × SourceMap)) (line column i : Nat)
        (s : SourcePos × SourceMap),
      sectionIndex (sections.map Prod.fst) ⟨line, column⟩ = some i →
      sections.get? i = some s →
      SourceMap.lookup_token (SourceMap.Sectioned sections) line column =
        s.2.lookup_token (line - s.1.line)
          (if line = s.1.line then column - s.1.column else column)) ∧
    (∀ m : SourceMap,
      SourceMap.lookup_token (SourceMap.Sectioned [(⟨10, 5⟩, m)]) 10 5 =
          m.lookup_token 0 0 ∧
      SourceMap.lookup_token (SourceMap.Sectioned [(⟨10, 5⟩, m)]) 10 8 =
          m.lookup_token 0 3 ∧
      SourceMap.lookup_token (SourceMap.Sectioned [(⟨10, 5⟩, m)]) 11 2 =
          m.lookup_token 1 2) := by
  constructor
  · intro sections line column i s hidx hget
    exact lookup_token_sectioned_some hidx hget
  · intro m
    refine ⟨?_, ?_, ?_⟩
    · have h := @lookup_token_sectioned_some [(⟨10, 5⟩, m)] 10 5 0
        (⟨10, 5⟩, m) (by simp [sectionIndex, glbLoop, SourcePos.lt]) rfl
      simpa using h
    · have h := @lookup_token_sectioned_some [(⟨10, 5⟩, m)] 10 8 0
        (⟨10, 5⟩, m) (by simp [sectionIndex, glbLoop, SourcePos.lt]) rfl
      simpa using h
    · have h := @lookup_token_sectioned_some [(⟨10, 5⟩, m)] 11 2 0
        (⟨10, 5⟩, m) (by simp [sectionIndex, glbLoop, SourcePos.lt]) rfl
      simpa using h

/-- Witness for C3: the general translation rule applied to the concrete
section with offset `(10,5)` queried at `(11,2)`. -/
theorem sectioned_lookup_coordinate_translation_witness :
    SourceMap.lookup_token (SourceMap.Sectioned [(⟨10, 5⟩, SourceMap.empty)])
        11 2 =
      SourceMap.empty.lookup_token (11 - 10)
        (if 11 = (10 : Nat) then 2 - 5 else 2) := by
  have h := sectioned_lookup_coordinate_translation.1
    [(⟨10, 5⟩, SourceMap.empty)] 11 2 0 (⟨10, 5⟩, SourceMap.empty)
    (by simp [sectionIndex, glbLoop, SourcePos.lt]) rfl
  simpa using h

/-- C2: on a Regular map, a mapping returned by the underlying decoder whose
generated line differs from the requested line is filtered out — the lookup
returns the empty result — and any token the lookup does return has its
generated line equal to the requested line. -/
theorem regular_lookup_wrong_line_filter (tokens : List CrateToken)
    (line column : Nat) :
    (∀ t, crateLookup tokens line column = some t → t.dst_line ≠ line →
      SourceMap.lookup_token (SourceMap.Regular tokens) line column = none) ∧
    (∀ tok,
      SourceMap.lookup_token (SourceMap.Regular tokens) line column = some tok →
      tok.generated_line = line) := by
  constructor
  · intro t hcrate hne
    rw [SourceMap.lookup_token, hcrate]
    simp [Option.filter, hne]
  · intro tok hlook
    rw [SourceMap.lookup_token] at hlook
    cases hcrate : crateLookup tokens line column with
    | none => rw [hcrate] at hlook; exact Option.noConfusion hlook
    | some t =>
      rw [hcrate] at hlook
      by_cases hline : t.dst_line = line
      · simp only [Option.filter, hline, beq_self_eq_true, if_true] at hlook
        unfold Token.fromCrate at hlook
        cases hsrc : t.source with
        | none =>
          simp [CrateToken.has_source, hsrc] at hlook
          rw [← hlook]
          simp [Token.generated_line, hline]
        | some s =>
          simp [CrateToken.has_source, CrateToken.get_source, hsrc] at hlook
          rw [← hlook]
          simp [Token.generated_line, hline]
      · simp [Option.filter, hline] at hlook

/-- Witness for C2: the decoder's answer for line 3 on a map whose only
token is at line 0 is that line-0 token, and the lookup filters it out. -/
theorem regular_lookup_wrong_line_filter_witness :
    SourceMap.lookup_token
      (SourceMap.Regular [⟨0, 0, 0, 0, none, none⟩]) 3 0 = none :=
  (regular_lookup_wrong_line_filter [⟨0, 0, 0, 0, none, none⟩] 3 0).1
    ⟨0, 0, 0, 0, none, none⟩
    (by simp [crateLookup, SourcePos.le]) (by decide)

/-- C7: `empty()` is a Regular map with exactly one mapping from generated
`(0,0)` to original `(0,0)` and no source file, and looking up `(0,0)` on it
yields a Synthetic token (so in particular not an Original one). -/
theorem empty_lookup_synthetic :
    SourceMap.empty = SourceMap.Regular [⟨0, 0, 0, 0, none, none⟩] ∧
    SourceMap.empty.lookup_token 0 0 = some (Token.Synthetic ⟨0, 0⟩) := by
  constructor
  · rfl
  · rw [SourceMap.empty, SourceMap.lookup_token]
    simp [crateLookup, SourcePos.le, Option.filter, Token.fromCrate,
      CrateToken.has_source]

/-- C8: `lookup_token` is deterministic — two lookups with identical
coordinates against the same map value return identical results.  In this
embedding the function consumes no state besides its arguments, so the
no-mutation half of the claim holds by construction. -/
theorem lookup_token_deterministic (m₁ m₂ : SourceMap) (l₁ l₂ c₁ c₂ : Nat)
    (hm : m₁ = m₂) (hl : l₁ = l₂) (hc : c₁ = c₂) :
    m₁.lookup_token l₁ c₁ = m₂.lookup_token l₂ c₂ := by
  subst hm; subst hl; subst hc; rfl

/-- Witness for C8 at a concrete map and position. -/
theorem lookup_token_deterministic_witness :
    SourceMap.empty.lookup_token 0 0 = SourceMap.empty.lookup_token 0 0 :=
  lookup_token_deterministic SourceMap.empty SourceMap.empty 0 0 0 0
    rfl rfl rfl

/-- C9: the coordinate translation of the Sectioned lookup cannot underflow:
whenever the GLB search selects a section on a sorted Sectioned map, the
section's offset is `<=` the query, so its line never exceeds the query line,
and on the offset's own line its column never exceeds the query column; both
truncated subtractions are therefore exact. -/
theorem sectioned_translation_no_underflow
    (sections : List (SourcePos × SourceMap)) (line column i : Nat)
    (s : SourcePos × SourceMap)
    (_hsorted : List.Pairwise SourcePos.lt (sections.map Prod.fst))
    (hidx : sectionIndex (sections.map Prod.fst) ⟨line, column⟩ = some i)
    (hget : sections.get? i = some s) :
    s.1.line ≤ line ∧
    (line = s.1.line → s.1.column ≤ column) ∧
    (line - s.1.line) + s.1.line = line ∧
    (line = s.1.line → (column - s.1.column) + s.1.column = column) := by
  obtain ⟨-, hi, hle, -⟩ := (sectionIndex_spec (sections.map Prod.fst) _).2 i hidx
  have hgetm : (sections.map Prod.fst).getD i ⟨0, 0⟩ = s.1 := by
    have hi' : i < sections.length := by simpa using hi
    rw [List.getD_eq_getElem _ _ hi]
    have := List.get?_eq_get hi'
    rw [this] at hget
    simp only [Option.some.injEq] at hget
    simp [← hget]
  rw [hgetm] at hle
  simp only [SourcePos.le] at hle
  refine ⟨by omega, by omega, by omega, by omega⟩

/-- Witness for C9: the selected section `(10,5)` under query `(11,2)`. -/
theorem sectioned_translation_no_underflow_witness :
    (10 : Nat) ≤ 11 ∧ ((11 : Nat) = 10 → (5 : Nat) ≤ 2) ∧
    (11 - 10) + 10 = (11 : Nat) ∧ ((11 : Nat) = 10 → (2 - 5) + 5 = (2 : Nat)) := by
  have h := sectioned_translation_no_underflow
    [(⟨10, 5⟩, SourceMap.empty)] 11 2 0 (⟨10, 5⟩, SourceMap.empty)
    (by simp) (by simp [sectionIndex, glbLoop, SourcePos.lt]) rfl
  exact h

/-- C10: converting a decoder token to a `Token` never fails — the source
extraction in the Original branch is guarded by `has_source()` — and the
result is an Original token exactly when the decoder token has a source,
a Synthetic token otherwise. -/
theorem token_from_crate_total (t : CrateToken) :
    (Token.fromCrate t).isSome = true ∧
    (t.has_source = true →
      Token.fromCrate t =
        some (Token.Original
          ⟨t.dst_line, t.dst_col, t.source.getD "", t.src_line, t.src_col,
            t.name⟩)) ∧
    (t.has_source = false →
      Token.fromCrate t = some (Token.Synthetic ⟨t.dst_line, t.dst_col⟩)) := by
  cases hsrc : t.source with
  | none =>
    refine ⟨?_, ?_, ?_⟩ <;>
      simp [Token.fromCrate, CrateToken.has_source, CrateToken.get_source, hsrc]
  | some s =>
    refine ⟨?_, ?_, ?_⟩ <;>
      simp [Token.fromCrate, CrateToken.has_source, CrateToken.get_source, hsrc]

/-- Witness for C10 on a token that has a source and one that does not. -/
theorem token_from_crate_total_witness :
    Token.fromCrate ⟨1, 2, 3, 4, some "a.js", none⟩ =
      some (Token.Original ⟨1, 2, "a.js", 3, 4, none⟩) ∧
    Token.fromCrate ⟨1, 2, 3, 4, none, none⟩ =
      some (Token.Synthetic ⟨1, 2⟩) :=
  ⟨by
    have h := (token_from_crate_total ⟨1, 2, 3, 4, some "a.js", none⟩).2.1
      (by decide)
    simpa using h,
   by
    have h := (token_from_crate_total ⟨1, 2, 3, 4, none, none⟩).2.2 (by decide)
    simpa using h⟩

/-- C4: serializing a Sectioned map with exactly one section at offset
`(0,0)` produces exactly the bytes of that section's nested map, with no
index-map wrapper. -/
theorem to_rope_degenerate_section (toWriter : List CrateToken → String)
    (m : SourceMap) :
    SourceMap.to_rope toWriter (SourceMap.Sectioned [(⟨0, 0⟩, m)]) =
      SourceMap.to_rope toWriter m := by
  rw [SourceMap.to_rope]
  simp

/-- C5: outside the degenerate case, serializing a Sectioned map yields the
index-map wrapper around the section entries in section-list order, joined
by commas with no trailing comma; each entry carries its offset's line and
column and its nested map's own serialized text. -/
theorem to_rope_sectioned_format (toWriter : List CrateToken → String)
    (sections : List (SourcePos × SourceMap))
    (hnd : sections.length = 1 → ∀ s ∈ sections, s.1 ≠ (⟨0, 0⟩ : SourcePos)) :
    SourceMap.to_rope toWriter (SourceMap.Sectioned sections) =
      indexMapHeader ++
        joinComma
          (sections.map fun s => sectionEntry s.1 (s.2.to_rope toWriter)) ++
        indexMapFooter := by
  cases sections with
  | nil =>
    rw [SourceMap.to_rope, sectionEntries_true_eq]
    intro s h
    simp at h
  | cons a rest =>
    cases rest with
    | nil =>
      have hne : a.1 ≠ (⟨0, 0⟩ : SourcePos) :=
        hnd (by simp) a (by simp)
      rw [SourceMap.to_rope, if_neg hne, sectionEntries_true_eq]
    | cons b bs =>
      rw [SourceMap.to_rope, sectionEntries_true_eq]
      intro s h
      simp at h

/-- Witness for C5: two sections at `(0,0)` and `(10,0)`. -/
theorem to_rope_sectioned_format_witness :
    SourceMap.to_rope (fun _ => "R")
        (SourceMap.Sectioned
          [(⟨0, 0⟩, SourceMap.Regular []), (⟨10, 0⟩, SourceMap.Regular [])]) =
      indexMapHeader ++
        joinComma
          ([(⟨0, 0⟩, SourceMap.Regular []),
            (⟨10, 0⟩, SourceMap.Regular [])].map
            fun s => sectionEntry s.1 (s.2.to_rope fun _ => "R")) ++
        indexMapFooter :=
  to_rope_sectioned_format (fun _ => "R")
    [(⟨0, 0⟩, SourceMap.Regular []), (⟨10, 0⟩, SourceMap.Regular [])]
    (by simp)

/-- C6: the wrapper's byte serialization round-trips losslessly — the
deserialized map is the original token list, so its `lookup_token` result
agrees with the original's at every query position. -/
theorem crate_map_wrapper_round_trip (tokens : List CrateToken) :
    ∃ decoded,
      crateMapWrapper_deserialize (crateMapWrapper_serialize tokens) =
        some decoded ∧
      ∀ line column,
        SourceMap.lookup_token (SourceMap.Regular decoded) line column =
          SourceMap.lookup_token (SourceMap.Regular tokens) line column := by
  refine ⟨tokens, ?_, fun _ _ => rfl⟩
  have h := decodeTokens_encodeTokens tokens []
  rw [List.append_nil] at h
  simp [crateMapWrapper_deserialize, crateMapWrapper_serialize, h]
